import Mathlib

/-!
Verification of the ColorPy color-model conversion and clipping engine.

The definitions below are shallow embeddings of the Python sources:
  * `colortypes.py`  — color constructors and normalization,
  * `colormodels.py` — the XYZ/RGB conversion matrices built by `init`,
  * `clipping.py`    — chromaticity/intensity clipping and hex-string codec,
  * `percept.py`     — Luv and Lab conversions,
  * `gamma.py`       — gamma correction converters.
Python floats are embedded as exact rationals (`ℚ`) where the code only
uses field arithmetic and comparisons, and as real numbers (`ℝ`) where the
code uses `math.pow`.  `numpy.linalg.solve` and `numpy.linalg.inv` on 3×3
systems are embedded as the exact adjugate/determinant inverse.
-/

/-- A 3-component color vector (the 3-element numpy arrays of `colortypes.py`). -/
@[ext]
structure Vec3 (α : Type) where
  x : α
  y : α
  z : α
deriving DecidableEq, Repr

/-- `colortypes.xyz_color (x, y)` with `z` omitted: choose `z` so that `x+y+z = 1`. -/
def xyz_color (x y : ℚ) : Vec3 ℚ :=
  ⟨x, y, 1 - (x + y)⟩

/-- `colortypes.xyz_normalize`: scale so that all values add to 1.0
(no-op when the sum is exactly zero). -/
def xyz_normalize (xyz : Vec3 ℚ) : Vec3 ℚ :=
  let sum_xyz := xyz.x + xyz.y + xyz.z
  if sum_xyz ≠ 0 then
    let scale := 1 / sum_xyz
    ⟨xyz.x * scale, xyz.y * scale, xyz.z * scale⟩
  else xyz

/-- `colortypes.xyz_normalize_Y1`: scale so that the y component is 1.0
(no-op when `y` is exactly zero). -/
def xyz_normalize_Y1 (xyz : Vec3 ℚ) : Vec3 ℚ :=
  if xyz.y ≠ 0 then
    let scale := 1 / xyz.y
    ⟨xyz.x * scale, xyz.y * scale, xyz.z * scale⟩
  else xyz

/-- sRGB (ITU-R BT.709) red phosphor chromaticity (`colormodels.SRGB_Red`). -/
def SRGB_Red : Vec3 ℚ := xyz_color 0.640 0.330

/-- sRGB green phosphor chromaticity (`colormodels.SRGB_Green`). -/
def SRGB_Green : Vec3 ℚ := xyz_color 0.300 0.600

/-- sRGB blue phosphor chromaticity (`colormodels.SRGB_Blue`). -/
def SRGB_Blue : Vec3 ℚ := xyz_color 0.150 0.060

/-- sRGB D65 white point (`colormodels.SRGB_White`). -/
def SRGB_White : Vec3 ℚ := xyz_color 0.3127 0.3290

/-- A 3×3 rational matrix, row major (`m01` is row 0, column 1). -/
structure Mat3 where
  m00 : ℚ
  m01 : ℚ
  m02 : ℚ
  m10 : ℚ
  m11 : ℚ
  m12 : ℚ
  m20 : ℚ
  m21 : ℚ
  m22 : ℚ
deriving DecidableEq, Repr

/-- Matrix-vector product (`numpy.dot` of a 3×3 matrix with a 3-vector). -/
def matVec (M : Mat3) (v : Vec3 ℚ) : Vec3 ℚ :=
  ⟨M.m00 * v.x + M.m01 * v.y + M.m02 * v.z,
   M.m10 * v.x + M.m11 * v.y + M.m12 * v.z,
   M.m20 * v.x + M.m21 * v.y + M.m22 * v.z⟩

/-- 3×3 matrix product. -/
def matMul (A B : Mat3) : Mat3 :=
  ⟨A.m00 * B.m00 + A.m01 * B.m10 + A.m02 * B.m20,
   A.m00 * B.m01 + A.m01 * B.m11 + A.m02 * B.m21,
   A.m00 * B.m02 + A.m01 * B.m12 + A.m02 * B.m22,
   A.m10 * B.m00 + A.m11 * B.m10 + A.m12 * B.m20,
   A.m10 * B.m01 + A.m11 * B.m11 + A.m12 * B.m21,
   A.m10 * B.m02 + A.m11 * B.m12 + A.m12 * B.m22,
   A.m20 * B.m00 + A.m21 * B.m10 + A.m22 * B.m20,
   A.m20 * B.m01 + A.m21 * B.m11 + A.m22 * B.m21,
   A.m20 * B.m02 + A.m21 * B.m12 + A.m22 * B.m22⟩

/-- The 3×3 identity matrix. -/
def idMat3 : Mat3 := ⟨1, 0, 0, 0, 1, 0, 0, 0, 1⟩

/-- Determinant of a 3×3 matrix. -/
def det3 (M : Mat3) : ℚ :=
  M.m00 * (M.m11 * M.m22 - M.m12 * M.m21)
  - M.m01 * (M.m10 * M.m22 - M.m12 * M.m20)
  + M.m02 * (M.m10 * M.m21 - M.m11 * M.m20)

/-- Exact 3×3 matrix inverse via the adjugate (the mathematical content of
`numpy.linalg.inv`; meaningful when `det3 M ≠ 0`). -/
def inv3 (M : Mat3) : Mat3 :=
  let d := det3 M
  ⟨(M.m11 * M.m22 - M.m12 * M.m21) / d,
   (M.m02 * M.m21 - M.m01 * M.m22) / d,
   (M.m01 * M.m12 - M.m02 * M.m11) / d,
   (M.m12 * M.m20 - M.m10 * M.m22) / d,
   (M.m00 * M.m22 - M.m02 * M.m20) / d,
   (M.m02 * M.m10 - M.m00 * M.m12) / d,
   (M.m10 * M.m21 - M.m11 * M.m20) / d,
   (M.m01 * M.m20 - M.m00 * M.m21) / d,
   (M.m00 * M.m11 - M.m01 * M.m10) / d⟩

/-- `numpy.column_stack` of three 3-vectors. -/
def column_stack (c0 c1 c2 : Vec3 ℚ) : Mat3 :=
  ⟨c0.x, c1.x, c2.x,
   c0.y, c1.y, c2.y,
   c0.z, c1.z, c2.z⟩

/-- Scalar multiple of a vector (`phosphor * intensity` in `colormodels.init`). -/
def smulVec (s : ℚ) (v : Vec3 ℚ) : Vec3 ℚ := ⟨s * v.x, s * v.y, s * v.z⟩

/-- The two conversion matrices set up by `colormodels.init`. -/
structure ColorConfig where
  rgb_from_xyz_matrix : Mat3
  xyz_from_rgb_matrix : Mat3
deriving DecidableEq, Repr

/-- `colormodels.init`: build the XYZ↔RGB conversion matrices from the phosphor
chromaticities and the white point.  `numpy.linalg.solve (P, w)` is embedded as
`inv3 P * w` (exact linear solve). -/
def init (phosphor_red phosphor_green phosphor_blue white_point : Vec3 ℚ) : ColorConfig :=
  let phosphor_matrix := column_stack phosphor_red phosphor_green phosphor_blue
  let normalized_white := xyz_normalize_Y1 white_point
  let intensities := matVec (inv3 phosphor_matrix) normalized_white
  let xyz_from_rgb := column_stack
    (smulVec intensities.x phosphor_red)
    (smulVec intensities.y phosphor_green)
    (smulVec intensities.z phosphor_blue)
  ⟨inv3 xyz_from_rgb, xyz_from_rgb⟩

/-- `colormodels.rgb_from_xyz`. -/
def rgb_from_xyz (cfg : ColorConfig) (xyz : Vec3 ℚ) : Vec3 ℚ :=
  matVec cfg.rgb_from_xyz_matrix xyz

/-- `colormodels.xyz_from_rgb`. -/
def xyz_from_rgb (cfg : ColorConfig) (rgb : Vec3 ℚ) : Vec3 ℚ :=
  matVec cfg.xyz_from_rgb_matrix rgb

/-- Entrywise closeness of two 3×3 matrices within tolerance `t`. -/
def matApprox (A B : Mat3) (t : ℚ) : Prop :=
  |A.m00 - B.m00| ≤ t ∧ |A.m01 - B.m01| ≤ t ∧ |A.m02 - B.m02| ≤ t ∧
  |A.m10 - B.m10| ≤ t ∧ |A.m11 - B.m11| ≤ t ∧ |A.m12 - B.m12| ≤ t ∧
  |A.m20 - B.m20| ≤ t ∧ |A.m21 - B.m21| ≤ t ∧ |A.m22 - B.m22| ≤ t

/-- Componentwise closeness of two 3-vectors within tolerance `t`. -/
def vecApprox (u v : Vec3 ℚ) (t : ℚ) : Prop :=
  |u.x - v.x| ≤ t ∧ |u.y - v.y| ≤ t ∧ |u.z - v.z| ≤ t

/-- Maximum of the three components (`max(rgb)` on a numpy array). -/
def rgbMax3 (v : Vec3 ℚ) : ℚ := max v.x (max v.y v.z)

/-- Minimum of the three components (`min(rgb)` on a numpy array). -/
def rgbMin3 (v : Vec3 ℚ) : ℚ := min v.x (min v.y v.z)

/-- `clipping.clip_color_whiten`: add enough white to remove negative components.
Returns the new color and the `clipped` flag. -/
def clip_color_whiten (rgb : Vec3 ℚ) : Vec3 ℚ × Bool :=
  let rgb_min := min 0 (rgbMin3 rgb)
  let rgb_max := rgbMax3 rgb
  let scaling := if rgb_max > 0 then rgb_max / (rgb_max - rgb_min) else 1
  if rgb_min < 0 then
    (⟨scaling * (rgb.x - rgb_min),
      scaling * (rgb.y - rgb_min),
      scaling * (rgb.z - rgb_min)⟩, true)
  else (rgb, false)

/-- `clipping.clip_intensity`: scale down colors whose maximum component
exceeds `1 + 0.5 / max_value`.  Returns the new color and the `clipped` flag. -/
def clip_intensity (rgb : Vec3 ℚ) (max_value : ℚ) : Vec3 ℚ × Bool :=
  let rgb_max := rgbMax3 rgb
  let intensity_cutoff := 1 + 0.5 / max_value
  if rgb_max > intensity_cutoff then
    let scaling := intensity_cutoff / rgb_max
    (⟨rgb.x * scaling, rgb.y * scaling, rgb.z * scaling⟩, true)
  else (rgb, false)

/-- Digit-to-character map of Python's `'%X'` formatting (uppercase hex). -/
def hexDigitChar (n : ℕ) : Char :=
  if n < 10 then Char.ofNat (48 + n) else Char.ofNat (55 + n)

/-- Zero-padded fixed-width hex rendering: `hexPad d v` is Python's
`'%0dX' % v` for `v < 16 ^ d` (the only way `clipping.hexstring_from_irgb`
uses the format, since it clamps each channel to `16 ^ d - 1` first). -/
def hexPad : ℕ → ℕ → List Char
  | 0, _ => []
  | d + 1, v => hexPad d (v / 16) ++ [hexDigitChar (v % 16)]

/-- `clipping.hexstring_from_irgb`: clamp each channel to `[0, 16^num_digits - 1]`
and render as `'#'` followed by three fixed-width uppercase hex groups. -/
def hexstring_from_irgb (irgb : Vec3 ℤ) (num_digits : ℕ) : List Char :=
  let num_values : ℕ := 16 ^ num_digits
  let max_value : ℤ := (num_values : ℤ) - 1
  let min_value : ℤ := 0
  let ir := min max_value (max min_value irgb.x)
  let ig := min max_value (max min_value irgb.y)
  let ib := min max_value (max min_value irgb.z)
  '#' :: (hexPad num_digits ir.toNat ++ hexPad num_digits ig.toNat ++ hexPad num_digits ib.toNat)

/-- Value of one hex character, as accepted by Python's `int (s, 0x10)`. -/
def hexDigitVal (c : Char) : Option ℕ :=
  if '0' ≤ c ∧ c ≤ '9' then some (c.toNat - 48)
  else if 'A' ≤ c ∧ c ≤ 'F' then some (c.toNat - 55)
  else if 'a' ≤ c ∧ c ≤ 'f' then some (c.toNat - 87)
  else none

/-- Accumulator loop of base-16 parsing. -/
def parseHexAux : List Char → ℕ → Option ℕ
  | [], acc => some acc
  | c :: cs, acc =>
    match hexDigitVal c with
    | none => none
    | some v => parseHexAux cs (16 * acc + v)

/-- Python's `int (s, 0x10)` on a string of hex digits: fails (raises
`ValueError`) on the empty string or on any non-hex-digit character. -/
def parseHex (s : List Char) : Option ℕ :=
  match s with
  | [] => none
  | _ => parseHexAux s 0

/-- Failure modes of `clipping.irgb_from_hexstring`: the two explicit format
checks raise `ValueError` with a message (`badPrefix`, `badLength`), and
`int (s, 0x10)` itself raises `ValueError` on a bad digit group (`badDigits`). -/
inductive HexErr where
  | badPrefix : HexErr
  | badLength : HexErr
  | badDigits : HexErr
deriving DecidableEq, Repr

/-- `clipping.irgb_from_hexstring`: parse `'#RRGGBB'`-style strings (any group
width).  `badPrefix` also covers the `IndexError` of `hexstring [0]` on `""`. -/
def irgb_from_hexstring (hexstring : List Char) : Except HexErr (Vec3 ℤ) :=
  match hexstring with
  | [] => .error .badPrefix
  | c :: rest =>
    if c ≠ '#' then .error .badPrefix
    else
      let num_all_digits := rest.length
      let num_digits := num_all_digits / 3
      if num_all_digits % 3 ≠ 0 then .error .badLength
      else
        let irs := rest.take num_digits
        let igs := (rest.drop num_digits).take num_digits
        let ibs := (rest.drop (2 * num_digits)).take num_digits
        match parseHex irs, parseHex igs, parseHex ibs with
        | some ir, some ig, some ib => .ok ⟨(ir : ℤ), (ig : ℤ), (ib : ℤ)⟩
        | _, _, _ => .error .badDigits

/-- `percept.L_LUM_A`. -/
def L_LUM_A : ℝ := 116.0

/-- `percept.L_LUM_B`. -/
def L_LUM_B : ℝ := 16.0

/-- `percept.L_LUM_C` (linear-range coefficient, printed to more digits than
the paper to make the piecewise function more continuous at the boundary). -/
def L_LUM_C : ℝ := 903.29629551307664

/-- `percept.L_LUM_CUTOFF`. -/
def L_LUM_CUTOFF : ℝ := 0.008856

/-- `percept.L_luminance`: the L coefficient for the Luv and Lab models. -/
noncomputable def L_luminance (y : ℝ) : ℝ :=
  if y > L_LUM_CUTOFF then L_LUM_A * y ^ ((1:ℝ)/3) - L_LUM_B
  else L_LUM_C * y

/-- `percept.L_luminance_inverse`. -/
noncomputable def L_luminance_inverse (L : ℝ) : ℝ :=
  if L ≤ L_LUM_C * L_LUM_CUTOFF then L / L_LUM_C
  else ((L + L_LUM_B) / L_LUM_A) ^ (3:ℕ)

/-- `percept.uv_primes`: the (u', v') chromaticity coordinates of an XYZ color,
`(0, 0)` when the denominator is exactly zero. -/
noncomputable def uv_primes (xyz : Vec3 ℝ) : ℝ × ℝ :=
  let w_denom := xyz.x + 15.0 * xyz.y + 3.0 * xyz.z
  if w_denom ≠ 0 then (4.0 * xyz.x / w_denom, 9.0 * xyz.y / w_denom)
  else (0, 0)

/-- `percept.uv_primes_inverse`: recover XYZ from (u', v') and y;
black when `v' = 0`. -/
noncomputable def uv_primes_inverse (u_prime v_prime y : ℝ) : Vec3 ℝ :=
  if v_prime ≠ 0 then
    let w_denom := (9.0 * y) / v_prime
    let x := 0.25 * u_prime * w_denom
    ⟨x, y, (w_denom - x - 15.0 * y) / 3.0⟩
  else ⟨0, 0, 0⟩

/-- `percept.LAB_F_A` (linear-range coefficient of `Lab_f`). -/
def LAB_F_A : ℝ := 7.7870370302851422

/-- `percept.LAB_F_B`. -/
noncomputable def LAB_F_B : ℝ := 16.0 / 116.0

/-- `percept.Lab_f`. -/
noncomputable def Lab_f (t : ℝ) : ℝ :=
  if t > L_LUM_CUTOFF then t ^ ((1:ℝ)/3)
  else LAB_F_A * t + LAB_F_B

/-- `percept.Lab_f_inverse`. -/
noncomputable def Lab_f_inverse (F : ℝ) : ℝ :=
  if F ≤ LAB_F_A * L_LUM_CUTOFF + LAB_F_B then (F - LAB_F_B) / LAB_F_A
  else F ^ (3:ℕ)

/-- `percept.luv_from_xyz` (module-level function with explicit reference data). -/
noncomputable def luv_from_xyz (xyz reference_white : Vec3 ℝ)
    (reference_u_prime reference_v_prime : ℝ) : Vec3 ℝ :=
  let y_p := xyz.y / reference_white.y
  let uv := uv_primes xyz
  let L := L_luminance y_p
  ⟨L, 13.0 * L * (uv.1 - reference_u_prime), 13.0 * L * (uv.2 - reference_v_prime)⟩

/-- `percept.xyz_from_luv` (the `XXreference_white` argument is unused in the
source and is omitted here). -/
noncomputable def xyz_from_luv (luv : Vec3 ℝ)
    (reference_u_prime reference_v_prime : ℝ) : Vec3 ℝ :=
  let L := luv.x
  let u := luv.y
  let v := luv.z
  let y := L_luminance_inverse L
  if L ≠ 0 then
    let L13 := 13.0 * L
    uv_primes_inverse (reference_u_prime + u / L13) (reference_v_prime + v / L13) y
  else ⟨0, 0, 0⟩

/-- `percept.lab_from_xyz`. -/
noncomputable def lab_from_xyz (xyz reference_white : Vec3 ℝ) : Vec3 ℝ :=
  let x_p := xyz.x / reference_white.x
  let y_p := xyz.y / reference_white.y
  let z_p := xyz.z / reference_white.z
  let f_x := Lab_f x_p
  let f_y := Lab_f y_p
  let f_z := Lab_f z_p
  ⟨L_luminance y_p, 500.0 * (f_x - f_y), 200.0 * (f_y - f_z)⟩

/-- `percept.xyz_from_lab`. -/
noncomputable def xyz_from_lab (Lab reference_white : Vec3 ℝ) : Vec3 ℝ :=
  let L := Lab.x
  let a := Lab.y
  let b := Lab.z
  let y_p := L_luminance_inverse L
  let f_y := Lab_f y_p
  let f_x := f_y + a / 500.0
  let f_z := f_y - b / 200.0
  let x_p := Lab_f_inverse f_x
  let z_p := Lab_f_inverse f_z
  ⟨x_p * reference_white.x, y_p * reference_white.y, z_p * reference_white.z⟩

/-- Real-number counterpart of `colortypes.xyz_normalize_Y1`, as used by
`percept.PerceptualConverter.init_Luv_Lab_white_point`. -/
noncomputable def xyz_normalize_Y1R (xyz : Vec3 ℝ) : Vec3 ℝ :=
  if xyz.y ≠ 0 then
    let scale := 1 / xyz.y
    ⟨xyz.x * scale, xyz.y * scale, xyz.z * scale⟩
  else xyz

/-- The reference data held by `percept.PerceptualConverter`. -/
structure PerceptualConverter where
  reference_white : Vec3 ℝ
  reference_u_prime : ℝ
  reference_v_prime : ℝ

/-- `percept.PerceptualConverter.__init__` / `init_Luv_Lab_white_point`:
normalize the white point to Y = 1 and cache its (u', v'). -/
noncomputable def mkPerceptualConverter (white_point : Vec3 ℝ) : PerceptualConverter :=
  let reference_white := xyz_normalize_Y1R white_point
  let uv := uv_primes reference_white
  ⟨reference_white, uv.1, uv.2⟩

/-- `percept.PerceptualConverter.luv_from_xyz` simply forwards to the
module-level `luv_from_xyz` with the converter's cached reference data, and
likewise for the other three methods; the theorems below therefore use the
module-level functions applied to the fields of `mkPerceptualConverter w`. -/
noncomputable def convLuvFromXyz (c : PerceptualConverter) (xyz : Vec3 ℝ) : Vec3 ℝ :=
  luv_from_xyz xyz c.reference_white c.reference_u_prime c.reference_v_prime

/-- `percept.PerceptualConverter.xyz_from_luv`. -/
noncomputable def convXyzFromLuv (c : PerceptualConverter) (luv : Vec3 ℝ) : Vec3 ℝ :=
  xyz_from_luv luv c.reference_u_prime c.reference_v_prime

/-- `percept.PerceptualConverter.lab_from_xyz`. -/
noncomputable def convLabFromXyz (c : PerceptualConverter) (xyz : Vec3 ℝ) : Vec3 ℝ :=
  lab_from_xyz xyz c.reference_white

/-- `percept.PerceptualConverter.xyz_from_lab`. -/
noncomputable def convXyzFromLab (c : PerceptualConverter) (Lab : Vec3 ℝ) : Vec3 ℝ :=
  xyz_from_lab Lab c.reference_white

/-- `gamma.simple_gamma_invert`: simple power law for gamma inverse correction
(non-positive values pass through unchanged). -/
noncomputable def simple_gamma_invert (x gamma_exponent : ℝ) : ℝ :=
  if x ≤ 0 then x else x ^ (1 / gamma_exponent)

/-- `gamma.simple_gamma_correct`: simple power law for gamma correction. -/
noncomputable def simple_gamma_correct (x gamma_exponent : ℝ) : ℝ :=
  if x ≤ 0 then x else x ^ gamma_exponent

/-- `gamma.srgb_gamma_invert`: the sRGB standard's published piecewise curve
(reference implementation). -/
noncomputable def srgb_gamma_invert (x : ℝ) : ℝ :=
  if x ≤ 0.00304 then 12.92 * x
  else 1.055 * x ^ ((1:ℝ) / 2.4) - 0.055

/-- `gamma.srgb_gamma_correct`: inverse direction of the sRGB reference curve. -/
noncomputable def srgb_gamma_correct (x : ℝ) : ℝ :=
  if x ≤ 0.03928 then x / 12.92
  else ((x + 0.055) / 1.055) ^ (2.4:ℝ)

/-- The fields of `gamma.GammaConverterHybrid`. -/
structure GammaConverterHybrid where
  gamma : ℝ
  a : ℝ
  one_plus_a : ℝ
  inv_gamma : ℝ
  K0 : ℝ
  Phi : ℝ
  K0_over_Phi : ℝ

/-- `gamma.GammaConverterHybrid.display_from_linear`. -/
noncomputable def GammaConverterHybrid.display_from_linear
    (c : GammaConverterHybrid) (linear : ℝ) : ℝ :=
  if linear < c.K0_over_Phi then c.Phi * linear
  else c.one_plus_a * linear ^ c.inv_gamma - c.a

/-- `gamma.GammaConverterHybrid.linear_from_display`. -/
noncomputable def GammaConverterHybrid.linear_from_display
    (c : GammaConverterHybrid) (display : ℝ) : ℝ :=
  if display < c.K0 then display / c.Phi
  else ((display + c.a) / c.one_plus_a) ^ c.gamma

/-- `gamma.GammaConverterHybrid.set_continuous_slope`: replace `K0` and `Phi`
by the values derived from `gamma` and `a` that give value and slope
continuity at the edge of black. -/
noncomputable def set_continuous_slope (c : GammaConverterHybrid) : GammaConverterHybrid :=
  let K0_better := c.a / (c.gamma - 1)
  let Phi_term_1 := c.one_plus_a ^ c.gamma
  let Phi_term_2 := (c.gamma - 1) ^ (c.gamma - 1)
  let Phi_term_3 := c.a ^ (c.gamma - 1)
  let Phi_term_4 := c.gamma ^ c.gamma
  let Phi_better := (Phi_term_1 * Phi_term_2) / (Phi_term_3 * Phi_term_4)
  { c with K0 := K0_better, Phi := Phi_better, K0_over_Phi := K0_better / Phi_better }

/-- `gamma.GammaConverterHybrid.__init__` with the `improve` flag: set the
derived fields, then optionally enforce slope continuity. -/
noncomputable def mkGammaConverterHybrid (gamma a K0 Phi : ℝ) (improve : Bool) :
    GammaConverterHybrid :=
  let base : GammaConverterHybrid :=
    ⟨gamma, a, 1 + a, 1 / gamma, K0, Phi, K0 / Phi⟩
  if improve then set_continuous_slope base else base

/-!  ## Theorems  -/

theorem inv3_mul (M : Mat3) (h : det3 M ≠ 0) : matMul (inv3 M) M = idMat3 := by
  obtain ⟨a, b, c, d, e, f, g, i, j⟩ := M
  simp only [det3] at h
  simp only [matMul, inv3, det3, idMat3]
  rw [Mat3.mk.injEq]
  refine ⟨?_, ?_, ?_, ?_, ?_, ?_, ?_, ?_, ?_⟩ <;>
    (field_simp; ring)

theorem matVec_inv3_right (M : Mat3) (h : det3 M ≠ 0) (v : Vec3 ℚ) :
    matVec M (matVec (inv3 M) v) = v := by
  obtain ⟨a, b, c, d, e, f, g, i, j⟩ := M
  obtain ⟨vx, vy, vz⟩ := v
  simp only [det3] at h
  simp only [matVec, inv3, det3]
  rw [Vec3.mk.injEq]
  refine ⟨?_, ?_, ?_⟩ <;>
    (field_simp; ring)

/-- **C10**: `xyz_normalize` returns its argument unchanged when `X+Y+Z = 0`,
and `xyz_normalize_Y1` returns its argument unchanged when `Y = 0` (so both
are total and never divide by zero); when the guarded quantity is nonzero the
advertised postconditions hold: the components of `xyz_normalize` sum to 1,
and `xyz_normalize_Y1` makes the `Y` component 1. -/
theorem c10_normalize_guards (v : Vec3 ℚ) :
    (v.x + v.y + v.z = 0 → xyz_normalize v = v) ∧
    (v.y = 0 → xyz_normalize_Y1 v = v) ∧
    (v.x + v.y + v.z ≠ 0 →
      (xyz_normalize v).x + (xyz_normalize v).y + (xyz_normalize v).z = 1) ∧
    (v.y ≠ 0 → (xyz_normalize_Y1 v).y = 1) := by
  refine ⟨fun h => ?_, fun h => ?_, fun h => ?_, fun h => ?_⟩
  · simp [xyz_normalize, h]
  · simp [xyz_normalize_Y1, h]
  · simp only [xyz_normalize, if_pos h]
    field_simp
  · simp only [xyz_normalize_Y1, if_pos h]
    field_simp

/-- Witness for C10 at the concrete input `(1, 2, 5)`. -/
theorem c10_normalize_guards_witness :
    ((xyz_normalize ⟨1, 2, 5⟩).x + (xyz_normalize ⟨1, 2, 5⟩).y +
      (xyz_normalize ⟨1, 2, 5⟩).z = 1) ∧
    (xyz_normalize_Y1 (⟨1, 2, 5⟩ : Vec3 ℚ)).y = 1 :=
  ⟨(c10_normalize_guards ⟨1, 2, 5⟩).2.2.1 (by norm_num),
   (c10_normalize_guards ⟨1, 2, 5⟩).2.2.2 (by norm_num)⟩

theorem rgbMax3_mul_right (v : Vec3 ℚ) (s : ℚ) (hs : 0 ≤ s) :
    rgbMax3 ⟨v.x * s, v.y * s, v.z * s⟩ = rgbMax3 v * s := by
  simp only [rgbMax3]
  rw [max_mul_of_nonneg _ _ hs, max_mul_of_nonneg _ _ hs]

/-- **C5**: `clip_intensity` fires (flag `true`) exactly when the maximum
component exceeds `1 + 0.5/max_value`; in that case all three components are
rescaled uniformly by `(1 + 0.5/max_value) / max(r,g,b)` and the new maximum
component is exactly `1 + 0.5/max_value`; otherwise the triple is returned
unchanged with flag `false`. -/
theorem c5_clip_intensity (v : Vec3 ℚ) (max_value : ℚ) (hmv : 0 < max_value) :
    ((clip_intensity v max_value).2 = true ↔ rgbMax3 v > 1 + 0.5 / max_value) ∧
    (rgbMax3 v > 1 + 0.5 / max_value →
      clip_intensity v max_value =
        (⟨v.x * ((1 + 0.5 / max_value) / rgbMax3 v),
          v.y * ((1 + 0.5 / max_value) / rgbMax3 v),
          v.z * ((1 + 0.5 / max_value) / rgbMax3 v)⟩, true) ∧
      rgbMax3 (clip_intensity v max_value).1 = 1 + 0.5 / max_value) ∧
    (¬ rgbMax3 v > 1 + 0.5 / max_value → clip_intensity v max_value = (v, false)) := by
  have hcut : (0:ℚ) < 1 + 0.5 / max_value := by positivity
  by_cases h : rgbMax3 v > 1 + 0.5 / max_value
  · have hM : (0:ℚ) < rgbMax3 v := lt_trans hcut h
    have hM0 : rgbMax3 v ≠ 0 := ne_of_gt hM
    have hs : (0:ℚ) ≤ (1 + 0.5 / max_value) / rgbMax3 v :=
      le_of_lt (div_pos hcut hM)
    refine ⟨by simp [clip_intensity, h], fun _ => ⟨by simp [clip_intensity, h], ?_⟩,
      fun hn => absurd h hn⟩
    simp only [clip_intensity, if_pos h]
    rw [rgbMax3_mul_right _ _ hs]
    field_simp
    ring
  · refine ⟨by simp [clip_intensity, h], fun hc => absurd hc h,
      fun _ => by simp [clip_intensity, h]⟩

/-- Witness for C5 at `v = (2, 0, 1)`, `max_value = 255`. -/
theorem c5_clip_intensity_witness :
    ((clip_intensity ⟨2, 0, 1⟩ 255).2 = true ↔ rgbMax3 ⟨2, 0, 1⟩ > 1 + 0.5 / 255) ∧
    rgbMax3 (clip_intensity ⟨2, 0, 1⟩ 255).1 = 1 + 0.5 / 255 :=
  ⟨(c5_clip_intensity ⟨2, 0, 1⟩ 255 (by norm_num)).1,
   ((c5_clip_intensity ⟨2, 0, 1⟩ 255 (by norm_num)).2.1
      (by norm_num [rgbMax3])).2⟩

/-- **C4 counterexample**: the claim asserts that after add-white clipping the
maximum component value is still `M = max(r,g,b)` whenever `m < 0`.  At
`(0, 0, -1)` we have `M = 0`, the code takes `scale = 1` and produces
`(1, 1, 0)` whose maximum is `1 ≠ 0`, so the unconditional max-preservation
conjunct is false. -/
theorem c4_whiten_counterexample :
    clip_color_whiten ⟨0, 0, -1⟩ = (⟨1, 1, 0⟩, true) ∧
    rgbMax3 (clip_color_whiten ⟨0, 0, -1⟩).1 ≠ rgbMax3 ⟨0, 0, -1⟩ := by
  constructor <;> norm_num [clip_color_whiten, rgbMax3, rgbMin3]

/-- **C4 amended**: with `m = min(0, min(r,g,b))` and `M = max(r,g,b)`, the
add-white clip leaves the triple unchanged with flag `false` when `m = 0`;
when `m < 0` it replaces each component `c` by `scale·(c - m)` with
`scale = M/(M-m)` if `M > 0` and `scale = 1` otherwise, sets the flag, leaves
every component non-negative and the most negative component at exactly `0`,
and — provided `M > 0` — the maximum component value is still `M`. -/
theorem c4_whiten_amended (v : Vec3 ℚ) :
    (min 0 (rgbMin3 v) = 0 → clip_color_whiten v = (v, false)) ∧
    (min 0 (rgbMin3 v) < 0 →
      (let m := min 0 (rgbMin3 v)
       let s := if rgbMax3 v > 0 then rgbMax3 v / (rgbMax3 v - m) else 1
       clip_color_whiten v = (⟨s * (v.x - m), s * (v.y - m), s * (v.z - m)⟩, true) ∧
       0 ≤ s * (v.x - m) ∧ 0 ≤ s * (v.y - m) ∧ 0 ≤ s * (v.z - m) ∧
       rgbMin3 (clip_color_whiten v).1 = 0 ∧
       (0 < rgbMax3 v → rgbMax3 (clip_color_whiten v).1 = rgbMax3 v))) := by
  constructor
  · intro h
    have h' : ¬ min 0 (rgbMin3 v) < 0 := by rw [h]; exact lt_irrefl 0
    simp only [clip_color_whiten, if_neg h']
  · intro h
    intro m s
    have hmdef : m = min 0 (rgbMin3 v) := rfl
    have hml : m < 0 := by rw [hmdef]; exact h
    have hr : rgbMin3 v < 0 := by
      by_contra hr
      push_neg at hr
      rw [hmdef, min_eq_left hr] at hml
      exact lt_irrefl 0 hml
    have hrm : rgbMin3 v = m := by rw [hmdef, min_eq_right (le_of_lt hr)]
    have hmx : m ≤ v.x := hrm ▸ min_le_left _ _
    have hmy : m ≤ v.y := hrm ▸ le_trans (min_le_right _ _) (min_le_left _ _)
    have hmz : m ≤ v.z := hrm ▸ le_trans (min_le_right _ _) (min_le_right _ _)
    have hsnn : 0 ≤ s := by
      show 0 ≤ if rgbMax3 v > 0 then rgbMax3 v / (rgbMax3 v - m) else 1
      split_ifs with hMpos
      · exact le_of_lt (div_pos hMpos (by linarith))
      · norm_num
    have heq : clip_color_whiten v =
        (⟨s * (v.x - m), s * (v.y - m), s * (v.z - m)⟩, true) := by
      show (if min 0 (rgbMin3 v) < 0 then _ else _) = _
      rw [if_pos h]
    refine ⟨heq, mul_nonneg hsnn (by linarith), mul_nonneg hsnn (by linarith),
      mul_nonneg hsnn (by linarith), ?_, ?_⟩
    · rw [heq]
      show min (s * (v.x - m)) (min (s * (v.y - m)) (s * (v.z - m))) = 0
      rw [mul_comm s (v.x - m), mul_comm s (v.y - m), mul_comm s (v.z - m),
        ← min_mul_of_nonneg _ _ hsnn, ← min_mul_of_nonneg _ _ hsnn,
        min_sub_sub_right, min_sub_sub_right]
      have : min v.x (min v.y v.z) = m := hrm
      rw [this, sub_self, zero_mul]
    · intro hMpos
      rw [heq]
      show max (s * (v.x - m)) (max (s * (v.y - m)) (s * (v.z - m))) = rgbMax3 v
      rw [mul_comm s (v.x - m), mul_comm s (v.y - m), mul_comm s (v.z - m),
        ← max_mul_of_nonneg _ _ hsnn, ← max_mul_of_nonneg _ _ hsnn,
        max_sub_sub_right, max_sub_sub_right]
      have hmax : max v.x (max v.y v.z) = rgbMax3 v := rfl
      rw [hmax]
      have hsval : s = rgbMax3 v / (rgbMax3 v - m) := by
        show (if rgbMax3 v > 0 then rgbMax3 v / (rgbMax3 v - m) else 1) = _
        rw [if_pos hMpos]
      rw [hsval]
      have hne : rgbMax3 v - m ≠ 0 := by linarith
      field_simp

/-- Witness for the C4 amended theorem at `v = (-1, 0, 1)`
(`m = -1`, `M = 1`, `scale = 1/2`, result `(0, 1/2, 1)`). -/
theorem c4_whiten_amended_witness :
    clip_color_whiten ⟨-1, 0, 1⟩ = (⟨0, 1/2, 1⟩, true) ∧
    rgbMin3 (clip_color_whiten ⟨-1, 0, 1⟩).1 = 0 ∧
    rgbMax3 (clip_color_whiten ⟨-1, 0, 1⟩).1 = rgbMax3 ⟨-1, 0, 1⟩ := by
  have h := (c4_whiten_amended ⟨-1, 0, 1⟩).2 (by norm_num [rgbMin3])
  simp only [rgbMin3, rgbMax3] at h
  norm_num at h
  exact ⟨h.1, h.2.1, h.2.2⟩

/-- **C6 counterexample**: on linear RGB `(1.2, 0.5, -0.3)` the claim asserts
the intensity step scales by `(1+0.5/255)/1.2 ≈ 0.8368` giving first component
`≈ 1.0042`.  In fact `(1+0.5/255)/1.2 = 511/612 ≈ 0.8350` and the first
component after the intensity step is exactly `511/510 ≈ 1.00196`, which is
not within `0.0005` of the claimed `1.0042`. -/
theorem c6_scenario_counterexample :
    (clip_intensity (clip_color_whiten ⟨1.2, 0.5, -0.3⟩).1 255).1.x = 511 / 510 ∧
    ¬ |(clip_intensity (clip_color_whiten ⟨1.2, 0.5, -0.3⟩).1 255).1.x - 1.0042| ≤
        0.0005 := by
  have h1 : clip_color_whiten ⟨1.2, 0.5, -0.3⟩ = (⟨1.2, 0.64, 0⟩, true) := by
    norm_num [clip_color_whiten, rgbMin3, rgbMax3]
  have h2 : clip_intensity ⟨1.2, 0.64, 0⟩ 255 = (⟨511/510, 2044/3825, 0⟩, true) := by
    norm_num [clip_intensity, rgbMax3]
  rw [h1, h2]
  norm_num [abs_le]

/-- **C6 amended**: on linear RGB `(1.2, 0.5, -0.3)` with the add-white method
and `max_value = 255`: the chromaticity step uses `m = -0.3` and scale
`1.2/(1.2+0.3) = 0.8` and produces exactly `(1.2, 0.64, 0)` with flag set; the
intensity step fires because `1.2 > 1 + 0.5/255` and scales by
`(1+0.5/255)/1.2 = 511/612 ≈ 0.83497`, giving exactly
`(511/510, 2044/3825, 0) ≈ (1.00196, 0.53438, 0)` before gamma correction;
both clip flags are true. -/
theorem c6_scenario_amended :
    min 0 (rgbMin3 ⟨1.2, 0.5, -0.3⟩) = -0.3 ∧
    rgbMax3 (⟨1.2, 0.5, -0.3⟩ : Vec3 ℚ) / (rgbMax3 ⟨1.2, 0.5, -0.3⟩ - (-0.3)) = 0.8 ∧
    clip_color_whiten ⟨1.2, 0.5, -0.3⟩ = (⟨1.2, 0.64, 0⟩, true) ∧
    rgbMax3 (⟨1.2, 0.64, 0⟩ : Vec3 ℚ) > 1 + 0.5 / 255 ∧
    (1 + 0.5 / 255) / rgbMax3 ⟨1.2, 0.64, 0⟩ = 511 / 612 ∧
    clip_intensity ⟨1.2, 0.64, 0⟩ 255 = (⟨511/510, 2044/3825, 0⟩, true) := by
  refine ⟨by norm_num [rgbMin3], by norm_num [rgbMax3], ?_, by norm_num [rgbMax3],
    by norm_num [rgbMax3], ?_⟩
  · norm_num [clip_color_whiten, rgbMin3, rgbMax3]
  · norm_num [clip_intensity, rgbMax3]

/-- **C1**: for every conversion configuration built by `init` whose resulting
`xyz_from_rgb` matrix is non-degenerate (nonzero determinant — in particular
the default sRGB/D65 configuration, see the witness), the product
`rgb_from_xyz_matrix · xyz_from_rgb_matrix` is the identity within `1e-8` per
entry (here: exactly), and for every XYZ triple with components in `[0, 10]`,
`xyz_from_rgb (rgb_from_xyz xyz)` reproduces `xyz` within `1e-10` per
component (here: exactly). -/
theorem c1_xyz_rgb_roundtrip (r g b w : Vec3 ℚ)
    (hdet : det3 (init r g b w).xyz_from_rgb_matrix ≠ 0) :
    matApprox
      (matMul (init r g b w).rgb_from_xyz_matrix (init r g b w).xyz_from_rgb_matrix)
      idMat3 1e-8 ∧
    ∀ v : Vec3 ℚ, 0 ≤ v.x ∧ v.x ≤ 10 ∧ 0 ≤ v.y ∧ v.y ≤ 10 ∧ 0 ≤ v.z ∧ v.z ≤ 10 →
      vecApprox (xyz_from_rgb (init r g b w) (rgb_from_xyz (init r g b w) v)) v 1e-10 := by
  have hkey : (init r g b w).rgb_from_xyz_matrix =
      inv3 ((init r g b w).xyz_from_rgb_matrix) := rfl
  constructor
  · rw [hkey, inv3_mul _ hdet]
    simp only [matApprox, idMat3, sub_self, abs_zero]
    norm_num
  · intro v _
    have hrt : xyz_from_rgb (init r g b w) (rgb_from_xyz (init r g b w) v) = v := by
      rw [xyz_from_rgb, rgb_from_xyz, hkey, matVec_inv3_right _ hdet]
    rw [hrt]
    simp only [vecApprox, sub_self, abs_zero]
    norm_num

/-- Witness for C1: the default sRGB/D65 configuration of `init ()` is
non-degenerate, its matrix product is the identity within `1e-8`, and the
round trip at the concrete XYZ triple `(1, 2, 3)` is within `1e-10`. -/
theorem c1_xyz_rgb_roundtrip_witness :
    matApprox
      (matMul (init SRGB_Red SRGB_Green SRGB_Blue SRGB_White).rgb_from_xyz_matrix
        (init SRGB_Red SRGB_Green SRGB_Blue SRGB_White).xyz_from_rgb_matrix)
      idMat3 1e-8 ∧
    vecApprox
      (xyz_from_rgb (init SRGB_Red SRGB_Green SRGB_Blue SRGB_White)
        (rgb_from_xyz (init SRGB_Red SRGB_Green SRGB_Blue SRGB_White) ⟨1, 2, 3⟩))
      ⟨1, 2, 3⟩ 1e-10 := by
  have hdet : det3 (init SRGB_Red SRGB_Green SRGB_Blue SRGB_White).xyz_from_rgb_matrix
      ≠ 0 := by
    norm_num [init, det3, inv3, matVec, column_stack, smulVec, xyz_normalize_Y1,
      xyz_color, SRGB_Red, SRGB_Green, SRGB_Blue, SRGB_White]
  exact ⟨(c1_xyz_rgb_roundtrip SRGB_Red SRGB_Green SRGB_Blue SRGB_White hdet).1,
    (c1_xyz_rgb_roundtrip SRGB_Red SRGB_Green SRGB_Blue SRGB_White hdet).2 ⟨1, 2, 3⟩
      (by norm_num)⟩

theorem hexPad_length (d v : ℕ) : (hexPad d v).length = d := by
  induction d generalizing v with
  | zero => rfl
  | succ d ih => simp [hexPad, ih]

theorem hexDigitVal_hexDigitChar : ∀ n : ℕ, n < 16 → hexDigitVal (hexDigitChar n) = some n := by
  decide

theorem parseHexAux_append (l1 l2 : List Char) (a : ℕ) :
    parseHexAux (l1 ++ l2) a =
      match parseHexAux l1 a with
      | none => none
      | some b => parseHexAux l2 b := by
  induction l1 generalizing a with
  | nil => rfl
  | cons c cs ih =>
    show parseHexAux (c :: (cs ++ l2)) a = _
    cases hd : hexDigitVal c with
    | none => simp [parseHexAux, hd]
    | some v => simp [parseHexAux, hd, ih]

theorem parseHexAux_hexPad (d : ℕ) : ∀ v a : ℕ, v < 16 ^ d →
    parseHexAux (hexPad d v) a = some (a * 16 ^ d + v) := by
  induction d with
  | zero =>
    intro v a hv
    interval_cases v
    simp [hexPad, parseHexAux]
  | succ d ih =>
    intro v a hv
    have hvd : v / 16 < 16 ^ d := by
      rw [Nat.div_lt_iff_lt_mul (by norm_num)]
      calc v < 16 ^ (d + 1) := hv
        _ = 16 ^ d * 16 := by rw [pow_succ]
    rw [hexPad, parseHexAux_append, ih (v / 16) a hvd]
    simp only [parseHexAux, hexDigitVal_hexDigitChar (v % 16) (Nat.mod_lt _ (by norm_num))]
    congr 1
    have hdm := Nat.div_add_mod v 16
    rw [pow_succ]
    ring_nf
    omega

theorem parseHex_hexPad (d v : ℕ) (hd : 1 ≤ d) (hv : v < 16 ^ d) :
    parseHex (hexPad d v) = some v := by
  have hne : hexPad d v ≠ [] := by
    intro hnil
    have := hexPad_length d v
    rw [hnil] at this
    simp at this
    omega
  cases hl : hexPad d v with
  | nil => exact absurd hl hne
  | cons c cs =>
    show parseHexAux (c :: cs) 0 = some v
    rw [← hl, parseHexAux_hexPad d v 0 hv]
    simp

theorem irgb_parse_groups (A B C : List Char) (d : ℕ)
    (hA : A.length = d) (hB : B.length = d) (hC : C.length = d) :
    irgb_from_hexstring ('#' :: (A ++ B ++ C)) =
      match parseHex A, parseHex B, parseHex C with
      | some ir, some ig, some ib => .ok ⟨(ir : ℤ), (ig : ℤ), (ib : ℤ)⟩
      | _, _, _ => .error .badDigits := by
  have hlen : (A ++ B ++ C).length = 3 * d := by
    simp [List.length_append, hA, hB, hC]
    omega
  have htakeA : (A ++ (B ++ C)).take d = A := by
    rw [← hA]; exact List.take_left _ _
  have hdropA : (A ++ (B ++ C)).drop d = B ++ C := by
    rw [← hA]; exact List.drop_left _ _
  have htakeB : (B ++ C).take d = B := by
    rw [← hB]; exact List.take_left _ _
  have hdropB : (B ++ C).drop d = C := by
    rw [← hB]; exact List.drop_left _ _
  simp only [irgb_from_hexstring]
  rw [if_neg (by decide : ¬ ('#' : Char) ≠ '#')]
  rw [hlen]
  rw [if_neg (by omega : ¬ 3 * d % 3 ≠ 0)]
  have hnd : 3 * d / 3 = d := Nat.mul_div_cancel_left d (by norm_num)
  rw [hnd]
  rw [List.append_assoc]
  have h2d : (A ++ (B ++ C)).drop (2 * d) = C := by
    have h2 : (2:ℕ) * d = d + d := by ring
    rw [h2, ← List.drop_drop, hdropA, hdropB]
  rw [htakeA, hdropA, htakeB, h2d]
  rw [List.take_of_length_le (le_of_eq hC)]

/-- **C8**: for every integer RGB triple and digit width `d ≥ 1`,
`irgb_from_hexstring (hexstring_from_irgb c d)` returns exactly the triple
obtained by clamping each channel into `[0, 16^d - 1]`; in particular, for a
triple already in that range the round trip returns the triple unchanged. -/
theorem c8_hexstring_roundtrip (v : Vec3 ℤ) (d : ℕ) (hd : 1 ≤ d) :
    irgb_from_hexstring (hexstring_from_irgb v d) =
      .ok ⟨min (((16 ^ d : ℕ) : ℤ) - 1) (max 0 v.x),
           min (((16 ^ d : ℕ) : ℤ) - 1) (max 0 v.y),
           min (((16 ^ d : ℕ) : ℤ) - 1) (max 0 v.z)⟩ ∧
    ((0 ≤ v.x ∧ v.x ≤ ((16 ^ d : ℕ) : ℤ) - 1) ∧
     (0 ≤ v.y ∧ v.y ≤ ((16 ^ d : ℕ) : ℤ) - 1) ∧
     (0 ≤ v.z ∧ v.z ≤ ((16 ^ d : ℕ) : ℤ) - 1) →
      irgb_from_hexstring (hexstring_from_irgb v d) = .ok v) := by
  have hpow : (1 : ℕ) ≤ 16 ^ d := Nat.one_le_pow _ _ (by norm_num)
  set M : ℤ := ((16 ^ d : ℕ) : ℤ) - 1 with hM
  have hM0 : 0 ≤ M := by
    rw [hM]; omega
  have hclamp : ∀ c : ℤ, 0 ≤ min M (max 0 c) ∧ (min M (max 0 c)).toNat < 16 ^ d := by
    intro c
    constructor
    · exact le_min hM0 (le_max_left _ _)
    · have h1 : min M (max 0 c) ≤ M := min_le_left _ _
      omega
  have hshape : hexstring_from_irgb v d =
      '#' :: (hexPad d (min M (max 0 v.x)).toNat ++ hexPad d (min M (max 0 v.y)).toNat ++
        hexPad d (min M (max 0 v.z)).toNat) := rfl
  have hmain : irgb_from_hexstring (hexstring_from_irgb v d) =
      .ok ⟨min M (max 0 v.x), min M (max 0 v.y), min M (max 0 v.z)⟩ := by
    rw [hshape,
      irgb_parse_groups _ _ _ d (hexPad_length _ _) (hexPad_length _ _) (hexPad_length _ _)]
    rw [parseHex_hexPad d _ hd (hclamp v.x).2, parseHex_hexPad d _ hd (hclamp v.y).2,
      parseHex_hexPad d _ hd (hclamp v.z).2]
    show Except.ok _ = _
    rw [Int.toNat_of_nonneg (hclamp v.x).1, Int.toNat_of_nonneg (hclamp v.y).1,
      Int.toNat_of_nonneg (hclamp v.z).1]
  refine ⟨hmain, fun hin => ?_⟩
  rw [hmain]
  congr 1
  obtain ⟨⟨hx0, hx1⟩, ⟨hy0, hy1⟩, ⟨hz0, hz1⟩⟩ := hin
  ext <;> simp <;> omega

/-- Witness for C8 at `c = (255, 0, 128)`, `d = 2` (the `"#FF0080"` scenario). -/
theorem c8_hexstring_roundtrip_witness :
    irgb_from_hexstring (hexstring_from_irgb ⟨255, 0, 128⟩ 2) =
      .ok ⟨255, 0, 128⟩ :=
  (c8_hexstring_roundtrip ⟨255, 0, 128⟩ 2 (by norm_num)).2 (by norm_num)

theorem parseHexAux_isSome (l : List Char) (a : ℕ)
    (h : ∀ c ∈ l, (hexDigitVal c).isSome) : ∃ n, parseHexAux l a = some n := by
  induction l generalizing a with
  | nil => exact ⟨a, rfl⟩
  | cons c cs ih =>
    obtain ⟨v, hv⟩ := Option.isSome_iff_exists.mp (h c (List.mem_cons_self c cs))
    rw [parseHexAux, hv]
    exact ih _ (fun c' hc' => h c' (List.mem_cons_of_mem _ hc'))

theorem parseHex_isSome (s : List Char) (hne : s ≠ [])
    (h : ∀ c ∈ s, (hexDigitVal c).isSome) : ∃ n, parseHex s = some n := by
  cases s with
  | nil => exact absurd rfl hne
  | cons c cs =>
    show ∃ n, parseHexAux (c :: cs) 0 = some n
    exact parseHexAux_isSome _ _ h

/-- **C9 counterexample**: the claim says every string `'#'` followed by a
multiple of 3 of hex digits (including zero digits) parses without raising; but
`irgb_from_hexstring "#"` passes both format checks and then fails inside
`int ('', 16)` (a `ValueError`, embedded as `badDigits`). -/
theorem c9_hexstring_counterexample :
    irgb_from_hexstring ['#'] = .error .badDigits := rfl

/-- **C9 amended**: `irgb_from_hexstring` fails with a format error when the
leading character is not `'#'` or when `len - 1` is not divisible by 3; and
for `'#'` followed by a *positive* multiple of 3 of hex digits it returns the
three equal digit groups parsed as base-16 integers, without failing. -/
theorem c9_hexstring_parse :
    (∀ (c : Char) (rest : List Char), c ≠ '#' →
      irgb_from_hexstring (c :: rest) = .error .badPrefix) ∧
    (∀ ds : List Char, ds.length % 3 ≠ 0 →
      irgb_from_hexstring ('#' :: ds) = .error .badLength) ∧
    (∀ (ds : List Char) (k : ℕ), ds.length = 3 * k → 1 ≤ k →
      (∀ c ∈ ds, (hexDigitVal c).isSome) →
      irgb_from_hexstring ('#' :: ds) =
        .ok ⟨(((parseHex (ds.take k)).getD 0 : ℕ) : ℤ),
             (((parseHex ((ds.drop k).take k)).getD 0 : ℕ) : ℤ),
             (((parseHex ((ds.drop (2 * k)).take k)).getD 0 : ℕ) : ℤ)⟩) := by
  refine ⟨?_, ?_, ?_⟩
  · intro c rest hc
    simp only [irgb_from_hexstring]
    rw [if_pos hc]
  · intro ds hlen
    simp only [irgb_from_hexstring]
    rw [if_neg (by decide : ¬ ('#' : Char) ≠ '#'), if_pos hlen]
  · intro ds k hlen hk hdig
    have h1ne : ds.take k ≠ [] := by
      intro hnil
      have := congrArg List.length hnil
      simp [List.length_take, hlen] at this
      omega
    have h2ne : (ds.drop k).take k ≠ [] := by
      intro hnil
      have := congrArg List.length hnil
      simp [List.length_take, List.length_drop, hlen] at this
      omega
    have h3ne : (ds.drop (2 * k)).take k ≠ [] := by
      intro hnil
      have := congrArg List.length hnil
      simp [List.length_take, List.length_drop, hlen] at this
      omega
    obtain ⟨n1, hp1⟩ := parseHex_isSome _ h1ne
      (fun c hc => hdig c (List.mem_of_mem_take hc))
    obtain ⟨n2, hp2⟩ := parseHex_isSome _ h2ne
      (fun c hc => hdig c (List.mem_of_mem_drop (List.mem_of_mem_take hc)))
    obtain ⟨n3, hp3⟩ := parseHex_isSome _ h3ne
      (fun c hc => hdig c (List.mem_of_mem_drop (List.mem_of_mem_take hc)))
    simp only [irgb_from_hexstring]
    rw [if_neg (by decide : ¬ ('#' : Char) ≠ '#'), hlen,
      if_neg (by omega : ¬ 3 * k % 3 ≠ 0), Nat.mul_div_cancel_left k (by norm_num)]
    rw [hp1, hp2, hp3]
    simp

/-- Witness for the C9 amended theorem at `"#ABC"` (`k = 1`). -/
theorem c9_hexstring_parse_witness :
    irgb_from_hexstring ['#', 'A', 'B', 'C'] =
      .ok ⟨(((parseHex (['A', 'B', 'C'].take 1)).getD 0 : ℕ) : ℤ),
           (((parseHex ((['A', 'B', 'C'].drop 1).take 1)).getD 0 : ℕ) : ℤ),
           (((parseHex ((['A', 'B', 'C'].drop (2 * 1)).take 1)).getD 0 : ℕ) : ℤ)⟩ :=
  c9_hexstring_parse.2.2 ['A', 'B', 'C'] 1 (by decide) (by decide) (by decide)

theorem rpow_third_cube {x : ℝ} (hx : 0 ≤ x) : (x ^ ((1:ℝ)/3)) ^ (3:ℕ) = x := by
  rw [← Real.rpow_natCast (x ^ ((1:ℝ)/3)) 3, ← Real.rpow_mul hx]
  norm_num

theorem cube_rpow_third {q : ℝ} (hq : 0 ≤ q) : (q ^ (3:ℕ)) ^ ((1:ℝ)/3) = q := by
  rw [← Real.rpow_natCast q 3, ← Real.rpow_mul hq]
  norm_num

theorem rpow_third_lt_of_cube_lt {p t : ℝ} (hp : 0 ≤ p) (h : p ^ (3:ℕ) < t) :
    p < t ^ ((1:ℝ)/3) := by
  calc p = (p ^ (3:ℕ)) ^ ((1:ℝ)/3) := (cube_rpow_third hp).symm
    _ < t ^ ((1:ℝ)/3) := Real.rpow_lt_rpow (pow_nonneg hp 3) h (by norm_num)

theorem rpow_third_lt_of_lt_cube {q t : ℝ} (ht : 0 ≤ t) (hq : 0 ≤ q)
    (h : t < q ^ (3:ℕ)) : t ^ ((1:ℝ)/3) < q := by
  calc t ^ ((1:ℝ)/3) < (q ^ (3:ℕ)) ^ ((1:ℝ)/3) :=
        Real.rpow_lt_rpow ht h (by norm_num)
    _ = q := cube_rpow_third hq

/-- **C7**: the piecewise luminance function `L` and the Lab auxiliary
function `f` are each continuous at the cutoff `t = 0.008856` to within
`1e-9`: the value of the upper (cube-root) branch at the cutoff differs from
the value the function takes there (the linear branch) by less than `1e-9`. -/
theorem c7_boundary_continuity :
    |(L_LUM_A * L_LUM_CUTOFF ^ ((1:ℝ)/3) - L_LUM_B) - L_luminance L_LUM_CUTOFF| < 1e-9 ∧
    |L_LUM_CUTOFF ^ ((1:ℝ)/3) - Lab_f L_LUM_CUTOFF| < 1e-9 := by
  have hp : (0.206893034421963823 : ℝ) < L_LUM_CUTOFF ^ ((1:ℝ)/3) := by
    apply rpow_third_lt_of_cube_lt (by norm_num)
    norm_num [L_LUM_CUTOFF]
  have hq : L_LUM_CUTOFF ^ ((1:ℝ)/3) < (0.206893034423963823 : ℝ) := by
    apply rpow_third_lt_of_lt_cube (by norm_num [L_LUM_CUTOFF]) (by norm_num)
    norm_num [L_LUM_CUTOFF]
  have hL : L_luminance L_LUM_CUTOFF = L_LUM_C * L_LUM_CUTOFF := by
    rw [L_luminance, if_neg (lt_irrefl _)]
  have hf : Lab_f L_LUM_CUTOFF = LAB_F_A * L_LUM_CUTOFF + LAB_F_B := by
    rw [Lab_f, if_neg (lt_irrefl _)]
  constructor
  · rw [hL, abs_lt]
    simp only [L_LUM_A, L_LUM_B, L_LUM_C, L_LUM_CUTOFF] at *
    constructor <;> nlinarith [hp, hq]
  · rw [hf, abs_lt]
    simp only [LAB_F_A, LAB_F_B, L_LUM_CUTOFF] at *
    constructor <;> nlinarith [hp, hq]

theorem le_rpow_five_twelfths {x q : ℝ} (hx : 0 ≤ x)
    (h : q ^ (12:ℕ) ≤ x ^ (5:ℕ)) : q ≤ x ^ ((1:ℝ)/2.4) := by
  have h24 : ((1:ℝ)/2.4) = 5/12 := by norm_num
  rw [h24]
  have hxp : (x ^ ((5:ℝ)/12)) ^ (12:ℕ) = x ^ (5:ℕ) := by
    rw [← Real.rpow_natCast (x ^ ((5:ℝ)/12)) 12, ← Real.rpow_mul hx]
    norm_num
    rw [← Real.rpow_natCast x 5]
    norm_num
  have hfin : q ^ (12:ℕ) ≤ (x ^ ((5:ℝ)/12)) ^ (12:ℕ) := by rw [hxp]; exact h
  exact le_of_pow_le_pow_left₀ (by norm_num) (Real.rpow_nonneg hx _) hfin

theorem simple_gamma_roundtrip (gamma x : ℝ) (hγ : 0 < gamma) (hx : 0 < x) :
    simple_gamma_correct (simple_gamma_invert x gamma) gamma = x ∧
    simple_gamma_invert (simple_gamma_correct x gamma) gamma = x := by
  have hγ0 : gamma ≠ 0 := ne_of_gt hγ
  have hinv_pos : 0 < x ^ ((1:ℝ)/gamma) := Real.rpow_pos_of_pos hx _
  have hcor_pos : 0 < x ^ gamma := Real.rpow_pos_of_pos hx _
  constructor
  · rw [simple_gamma_invert, if_neg (not_le.mpr hx), simple_gamma_correct,
      if_neg (not_le.mpr hinv_pos), ← Real.rpow_mul (le_of_lt hx),
      one_div, inv_mul_cancel₀ hγ0, Real.rpow_one]
  · rw [simple_gamma_correct, if_neg (not_le.mpr hx), simple_gamma_invert,
      if_neg (not_le.mpr hcor_pos), ← Real.rpow_mul (le_of_lt hx),
      one_div, mul_inv_cancel₀ hγ0, Real.rpow_one]

theorem srgb_linear_display_roundtrip (x : ℝ) (hx : 0 < x) :
    srgb_gamma_correct (srgb_gamma_invert x) = x := by
  by_cases h : x ≤ 0.00304
  · rw [srgb_gamma_invert, if_pos h, srgb_gamma_correct, if_pos (by linarith)]
    field_simp
  · push_neg at h
    have hkey : ((0.03928 + 0.055) / 1.055 : ℝ) ≤ (0.00304 : ℝ) ^ ((1:ℝ)/2.4) :=
      le_rpow_five_twelfths (by norm_num) (by norm_num)
    have hmono : (0.00304 : ℝ) ^ ((1:ℝ)/2.4) < x ^ ((1:ℝ)/2.4) :=
      Real.rpow_lt_rpow (by norm_num) h (by norm_num)
    have hgt : ¬ (1.055 * x ^ ((1:ℝ)/2.4) - 0.055 ≤ 0.03928) := by
      push_neg
      nlinarith
    rw [srgb_gamma_invert, if_neg (not_le.mpr h), srgb_gamma_correct, if_neg hgt]
    have hbase : (1.055 * x ^ ((1:ℝ)/2.4) - 0.055 + 0.055) / 1.055 = x ^ ((1:ℝ)/2.4) := by
      field_simp
    rw [hbase, ← Real.rpow_mul (le_of_lt hx)]
    norm_num

theorem srgb_display_linear_roundtrip (x : ℝ) (hx : 0 < x)
    (hrange : x ≤ 12.92 * 0.00304 ∨ 1.055 * (0.00304:ℝ) ^ ((1:ℝ)/2.4) - 0.055 < x) :
    srgb_gamma_invert (srgb_gamma_correct x) = x := by
  have hkey : ((0.03928 + 0.055) / 1.055 : ℝ) ≤ (0.00304 : ℝ) ^ ((1:ℝ)/2.4) :=
    le_rpow_five_twelfths (by norm_num) (by norm_num)
  rcases hrange with h | h
  · have h1 : x ≤ 0.03928 := by linarith
    have h2 : x / 12.92 ≤ 0.00304 := by
      rw [div_le_iff₀ (by norm_num)]
      linarith
    rw [srgb_gamma_correct, if_pos h1, srgb_gamma_invert, if_pos h2]
    field_simp
  · have hbeta : (0.03928 : ℝ) ≤ 1.055 * (0.00304:ℝ) ^ ((1:ℝ)/2.4) - 0.055 := by
      nlinarith
    have hx2 : ¬ x ≤ 0.03928 := not_le.mpr (lt_of_le_of_lt hbeta h)
    rw [srgb_gamma_correct, if_neg hx2]
    have hbase : (0.00304:ℝ) ^ ((1:ℝ)/2.4) < (x + 0.055) / 1.055 := by
      rw [lt_div_iff₀ (by norm_num)]
      nlinarith
    have hlin : (0.00304 : ℝ) < ((x + 0.055) / 1.055) ^ (2.4:ℝ) := by
      have hid : ((0.00304:ℝ) ^ ((1:ℝ)/2.4)) ^ (2.4:ℝ) = (0.00304 : ℝ) := by
        rw [← Real.rpow_mul (by norm_num)]
        norm_num
      calc (0.00304:ℝ) = ((0.00304:ℝ) ^ ((1:ℝ)/2.4)) ^ (2.4:ℝ) := hid.symm
        _ < ((x + 0.055) / 1.055) ^ (2.4:ℝ) :=
            Real.rpow_lt_rpow (Real.rpow_nonneg (by norm_num) _) hbase (by norm_num)
    rw [srgb_gamma_invert, if_neg (not_le.mpr hlin)]
    have hxpos : (0:ℝ) < (x + 0.055) / 1.055 := by positivity
    have hroot : (((x + 0.055) / 1.055) ^ (2.4:ℝ)) ^ ((1:ℝ)/2.4) = (x + 0.055) / 1.055 := by
      rw [← Real.rpow_mul (le_of_lt hxpos)]
      norm_num
    rw [hroot]
    have : (1.055:ℝ) * ((x + 0.055) / 1.055) = x + 0.055 := by field_simp
    rw [this]
    ring

/-- **C3 counterexample**: for the sRGB reference piecewise variant, at the
well-conditioned display value `x = 0.039279` (strictly inside the linear
branch, not at a branch boundary) the round trip
`display_from_linear (linear_from_display x)` lands in the power branch
because the published constants `0.00304 / 0.03928` are inconsistent, and the
result `≈ 0.0392811` misses `x` by far more than the claimed `1e-14`
relative tolerance. -/
theorem c3_gamma_counterexample :
    ¬ |srgb_gamma_invert (srgb_gamma_correct 0.039279) - 0.039279| ≤
        1e-14 * |(0.039279 : ℝ)| := by
  have h1 : srgb_gamma_correct (0.039279 : ℝ) = 0.039279 / 12.92 := by
    rw [srgb_gamma_correct, if_pos (by norm_num)]
  have hr : ¬ ((0.039279 : ℝ) / 12.92 ≤ 0.00304) := by norm_num
  have h2 : srgb_gamma_invert ((0.039279 : ℝ) / 12.92) =
      1.055 * ((0.039279 : ℝ) / 12.92) ^ ((1:ℝ)/2.4) - 0.055 := by
    rw [srgb_gamma_invert, if_neg hr]
  have hq : (0.089366 : ℝ) ≤ ((0.039279 : ℝ) / 12.92) ^ ((1:ℝ)/2.4) :=
    le_rpow_five_twelfths (by norm_num) (by norm_num)
  rw [h1, h2, not_le]
  have habs : |(0.039279 : ℝ)| = 0.039279 := by
    rw [abs_of_pos]
    norm_num
  rw [habs]
  have hpos : 1e-14 * (0.039279 : ℝ) <
      1.055 * ((0.039279 : ℝ) / 12.92) ^ ((1:ℝ)/2.4) - 0.055 - 0.039279 := by
    nlinarith
  calc (1e-14 : ℝ) * 0.039279
      < 1.055 * ((0.039279 : ℝ) / 12.92) ^ ((1:ℝ)/2.4) - 0.055 - 0.039279 := hpos
    _ ≤ |1.055 * ((0.039279 : ℝ) / 12.92) ^ ((1:ℝ)/2.4) - 0.055 - 0.039279| :=
        le_abs_self _

theorem hybrid_roundtrip (c : GammaConverterHybrid)
    (hγ : 0 < c.gamma) (ha : 0 ≤ c.a) (hΦ : 0 < c.Phi) (hK : 0 ≤ c.K0)
    (h1a : c.one_plus_a = 1 + c.a) (hig : c.inv_gamma = 1 / c.gamma)
    (hKP : c.K0_over_Phi = c.K0 / c.Phi)
    (hcont : ((c.K0 + c.a) / (1 + c.a)) ^ c.gamma = c.K0 / c.Phi)
    (x : ℝ) (hx : 0 < x) :
    c.linear_from_display (c.display_from_linear x) = x ∧
    c.display_from_linear (c.linear_from_display x) = x := by
  have hγ0 : c.gamma ≠ 0 := ne_of_gt hγ
  have h1apos : (0:ℝ) < 1 + c.a := by linarith
  have hbase0 : (0:ℝ) ≤ (c.K0 + c.a) / (1 + c.a) := div_nonneg (by linarith) (le_of_lt h1apos)
  have hroot : (c.K0 / c.Phi) ^ ((1:ℝ) / c.gamma) = (c.K0 + c.a) / (1 + c.a) := by
    rw [← hcont, ← Real.rpow_mul hbase0, mul_one_div, div_self hγ0, Real.rpow_one]
  constructor
  · rw [GammaConverterHybrid.display_from_linear]
    by_cases hlt : x < c.K0_over_Phi
    · rw [if_pos hlt, GammaConverterHybrid.linear_from_display,
        if_pos (by rw [hKP] at hlt; rw [mul_comm]; exact (lt_div_iff₀ hΦ).mp hlt)]
      field_simp
    · rw [if_neg hlt]
      push_neg at hlt
      rw [hKP] at hlt
      have hxl : (c.K0 / c.Phi) ^ ((1:ℝ) / c.gamma) ≤ x ^ ((1:ℝ) / c.gamma) :=
        Real.rpow_le_rpow (div_nonneg hK (le_of_lt hΦ)) hlt
          (by positivity)
      rw [hroot] at hxl
      have hd : c.K0 ≤ c.one_plus_a * x ^ c.inv_gamma - c.a := by
        rw [h1a, hig]
        have := mul_le_mul_of_nonneg_left hxl (le_of_lt h1apos)
        rw [mul_div_cancel₀ _ (ne_of_gt h1apos)] at this
        linarith
      rw [GammaConverterHybrid.linear_from_display, if_neg (not_lt.mpr hd)]
      have hsolve : (c.one_plus_a * x ^ c.inv_gamma - c.a + c.a) / c.one_plus_a =
          x ^ c.inv_gamma := by
        rw [h1a]
        field_simp
      rw [hsolve, hig, ← Real.rpow_mul (le_of_lt hx), one_div, inv_mul_cancel₀ hγ0,
        Real.rpow_one]
  · rw [GammaConverterHybrid.linear_from_display]
    by_cases hlt : x < c.K0
    · rw [if_pos hlt, GammaConverterHybrid.display_from_linear,
        if_pos (by rw [hKP]; exact div_lt_div_of_pos_right hlt hΦ),
        mul_comm, div_mul_cancel₀ _ (ne_of_gt hΦ)]
    · rw [if_neg hlt]
      push_neg at hlt
      have hxb : (c.K0 + c.a) / (1 + c.a) ≤ (x + c.a) / (1 + c.a) := by
        gcongr
      have hlin : c.K0 / c.Phi ≤ ((x + c.a) / c.one_plus_a) ^ c.gamma := by
        rw [h1a, ← hcont]
        exact Real.rpow_le_rpow hbase0 hxb (le_of_lt hγ)
      rw [GammaConverterHybrid.display_from_linear, if_neg (by rw [hKP]; exact not_lt.mpr hlin)]
      have hxa0 : (0:ℝ) ≤ (x + c.a) / c.one_plus_a := by
        rw [h1a]
        exact div_nonneg (by linarith) (le_of_lt h1apos)
      rw [hig, ← Real.rpow_mul hxa0, mul_one_div, div_self hγ0, Real.rpow_one, h1a]
      field_simp

theorem mk_improve_fields (gamma a K0 Phi : ℝ) :
    mkGammaConverterHybrid gamma a K0 Phi true =
      ⟨gamma, a, 1 + a, 1 / gamma, a / (gamma - 1),
       ((1 + a) ^ gamma * (gamma - 1) ^ (gamma - 1)) / (a ^ (gamma - 1) * gamma ^ gamma),
       (a / (gamma - 1)) /
         (((1 + a) ^ gamma * (gamma - 1) ^ (gamma - 1)) /
           (a ^ (gamma - 1) * gamma ^ gamma))⟩ := rfl

theorem mk_improve_continuity (gamma a : ℝ) (hγ : 1 < gamma) (ha : 0 < a) :
    ((a / (gamma - 1) + a) / (1 + a)) ^ gamma =
      (a / (gamma - 1)) /
        (((1 + a) ^ gamma * (gamma - 1) ^ (gamma - 1)) /
          (a ^ (gamma - 1) * gamma ^ gamma)) := by
  have hg1 : (0:ℝ) < gamma - 1 := by linarith
  have hγpos : (0:ℝ) < gamma := by linarith
  have ha1 : (0:ℝ) < 1 + a := by linarith
  have haa : a * a ^ (gamma - 1) = a ^ gamma := by
    have h := Real.rpow_add ha 1 (gamma - 1)
    rw [Real.rpow_one] at h
    have h2 : (1:ℝ) + (gamma - 1) = gamma := by ring
    rw [h2] at h
    exact h.symm
  have hgg : (gamma - 1) * (gamma - 1) ^ (gamma - 1) = (gamma - 1) ^ gamma := by
    have h := Real.rpow_add hg1 1 (gamma - 1)
    rw [Real.rpow_one] at h
    have h2 : (1:ℝ) + (gamma - 1) = gamma := by ring
    rw [h2] at h
    exact h.symm
  have hbase : (a / (gamma - 1) + a) / (1 + a) = (a * gamma) / ((gamma - 1) * (1 + a)) := by
    field_simp
    ring
  have hne2 : ((1:ℝ) + a) ^ gamma ≠ 0 := ne_of_gt (Real.rpow_pos_of_pos ha1 _)
  have hne3 : (gamma - 1) ^ (gamma - 1) ≠ 0 := ne_of_gt (Real.rpow_pos_of_pos hg1 _)
  have hne4 : a ^ (gamma - 1) ≠ 0 := ne_of_gt (Real.rpow_pos_of_pos ha _)
  have hne5 : gamma ^ gamma ≠ 0 := ne_of_gt (Real.rpow_pos_of_pos hγpos _)
  rw [hbase, Real.div_rpow (by positivity) (by positivity),
    Real.mul_rpow (le_of_lt ha) (le_of_lt hγpos),
    Real.mul_rpow (le_of_lt hg1) (le_of_lt ha1)]
  rw [← haa, ← hgg]
  field_simp
  ring

theorem mk_improve_roundtrip (gamma a K0 Phi x : ℝ)
    (hγ : 1 < gamma) (ha : 0 < a) (hx : 0 < x) :
    (mkGammaConverterHybrid gamma a K0 Phi true).linear_from_display
      ((mkGammaConverterHybrid gamma a K0 Phi true).display_from_linear x) = x ∧
    (mkGammaConverterHybrid gamma a K0 Phi true).display_from_linear
      ((mkGammaConverterHybrid gamma a K0 Phi true).linear_from_display x) = x := by
  have hg1 : (0:ℝ) < gamma - 1 := by linarith
  have hγpos : (0:ℝ) < gamma := by linarith
  have ha1 : (0:ℝ) < 1 + a := by linarith
  rw [mk_improve_fields]
  exact hybrid_roundtrip _ hγpos (le_of_lt ha)
    (div_pos (mul_pos (Real.rpow_pos_of_pos ha1 _) (Real.rpow_pos_of_pos hg1 _))
      (mul_pos (Real.rpow_pos_of_pos ha _) (Real.rpow_pos_of_pos hγpos _)))
    (le_of_lt (div_pos ha hg1)) rfl rfl rfl
    (mk_improve_continuity gamma a hγ ha) x hx

/-- **C3 amended**: round trips are exact (hence within any positive relative
tolerance) for: the simple power law with exponent `gamma > 0` in both
directions on `x > 0`; the sRGB reference piecewise variant in the
linear→display→linear direction on `x > 0`; the sRGB reference variant in the
display→linear→display direction for `x > 0` outside the inconsistency window
`(12.92·0.00304, 1.055·0.00304^(1/2.4) - 0.055]` forced by the published
constants (see the counterexample); a hybrid converter whose fields are
well-formed and satisfy the value-continuity condition
`((K0+a)/(1+a))^gamma = K0/Phi`, in both directions on `x > 0`; and in
particular every hybrid converter with auto-derived `K0`/`Phi`
(`improve = True`) for `gamma > 1`, `a > 0`, in both directions on `x > 0`. -/
theorem c3_gamma_amended :
    (∀ gamma x : ℝ, 0 < gamma → 0 < x →
      simple_gamma_correct (simple_gamma_invert x gamma) gamma = x ∧
      simple_gamma_invert (simple_gamma_correct x gamma) gamma = x) ∧
    (∀ x : ℝ, 0 < x → srgb_gamma_correct (srgb_gamma_invert x) = x) ∧
    (∀ x : ℝ, 0 < x →
      (x ≤ 12.92 * 0.00304 ∨ 1.055 * (0.00304:ℝ) ^ ((1:ℝ)/2.4) - 0.055 < x) →
      srgb_gamma_invert (srgb_gamma_correct x) = x) ∧
    (∀ c : GammaConverterHybrid, 0 < c.gamma → 0 ≤ c.a → 0 < c.Phi → 0 ≤ c.K0 →
      c.one_plus_a = 1 + c.a → c.inv_gamma = 1 / c.gamma →
      c.K0_over_Phi = c.K0 / c.Phi →
      ((c.K0 + c.a) / (1 + c.a)) ^ c.gamma = c.K0 / c.Phi →
      ∀ x : ℝ, 0 < x →
        c.linear_from_display (c.display_from_linear x) = x ∧
        c.display_from_linear (c.linear_from_display x) = x) ∧
    (∀ gamma a K0 Phi x : ℝ, 1 < gamma → 0 < a → 0 < x →
      (mkGammaConverterHybrid gamma a K0 Phi true).linear_from_display
        ((mkGammaConverterHybrid gamma a K0 Phi true).display_from_linear x) = x ∧
      (mkGammaConverterHybrid gamma a K0 Phi true).display_from_linear
        ((mkGammaConverterHybrid gamma a K0 Phi true).linear_from_display x) = x) :=
  ⟨simple_gamma_roundtrip,
   srgb_linear_display_roundtrip,
   srgb_display_linear_roundtrip,
   fun c hγ ha hΦ hK h1a hig hKP hcont x hx =>
     hybrid_roundtrip c hγ ha hΦ hK h1a hig hKP hcont x hx,
   fun gamma a K0 Phi x hγ ha hx => mk_improve_roundtrip gamma a K0 Phi x hγ ha hx⟩

/-- Witness for the C3 amended theorem: the power law at `gamma = 2`,
`x = 1/2`, and the auto-derived hybrid converter with the nominal sRGB
parameters at `x = 1/2`. -/
theorem c3_gamma_amended_witness :
    (simple_gamma_correct (simple_gamma_invert (1/2) 2) 2 = 1/2 ∧
     simple_gamma_invert (simple_gamma_correct (1/2) 2) 2 = 1/2) ∧
    ((mkGammaConverterHybrid 2.4 0.055 0.03928 12.92 true).linear_from_display
       ((mkGammaConverterHybrid 2.4 0.055 0.03928 12.92 true).display_from_linear (1/2)) =
         1/2 ∧
     (mkGammaConverterHybrid 2.4 0.055 0.03928 12.92 true).display_from_linear
       ((mkGammaConverterHybrid 2.4 0.055 0.03928 12.92 true).linear_from_display (1/2)) =
         1/2) :=
  ⟨c3_gamma_amended.1 2 (1/2) (by norm_num) (by norm_num),
   c3_gamma_amended.2.2.2.2 2.4 0.055 0.03928 12.92 (1/2) (by norm_num) (by norm_num)
     (by norm_num)⟩

theorem L_luminance_pos (y : ℝ) (hy : 0 < y) : 0 < L_luminance y := by
  rw [L_luminance]
  split_ifs with h
  · have h1 : ((16/116 : ℝ)) ^ (3:ℕ) < y := by
      have hc : ((16/116:ℝ)) ^ (3:ℕ) < L_LUM_CUTOFF := by norm_num [L_LUM_CUTOFF]
      simp only [L_LUM_CUTOFF] at hc h
      linarith
    have h2 : (16/116 : ℝ) < y ^ ((1:ℝ)/3) := rpow_third_lt_of_cube_lt (by norm_num) h1
    simp only [L_LUM_A, L_LUM_B]
    nlinarith
  · simp only [L_LUM_C]
    positivity

theorem L_luminance_roundtrip (y : ℝ) (hy : 0 ≤ y)
    (hseam : y ≤ L_LUM_CUTOFF ∨
      ((L_LUM_C * L_LUM_CUTOFF + L_LUM_B) / L_LUM_A) ^ (3:ℕ) < y) :
    L_luminance_inverse (L_luminance y) = y := by
  rcases hseam with h | h
  · rw [L_luminance, if_neg (not_lt.mpr h), L_luminance_inverse,
      if_pos (by simp only [L_LUM_C] at *; nlinarith)]
    simp only [L_LUM_C]
    field_simp
  · have hθnn : (0:ℝ) ≤ (L_LUM_C * L_LUM_CUTOFF + L_LUM_B) / L_LUM_A := by
      norm_num [L_LUM_A, L_LUM_B, L_LUM_C, L_LUM_CUTOFF]
    have hcub : L_LUM_CUTOFF < ((L_LUM_C * L_LUM_CUTOFF + L_LUM_B) / L_LUM_A) ^ (3:ℕ) := by
      norm_num [L_LUM_A, L_LUM_B, L_LUM_C, L_LUM_CUTOFF]
    have hygt : y > L_LUM_CUTOFF := lt_trans hcub h
    rw [L_luminance, if_pos hygt]
    have hyroot : (L_LUM_C * L_LUM_CUTOFF + L_LUM_B) / L_LUM_A < y ^ ((1:ℝ)/3) :=
      rpow_third_lt_of_cube_lt hθnn h
    have hL : ¬ (L_LUM_A * y ^ ((1:ℝ)/3) - L_LUM_B ≤ L_LUM_C * L_LUM_CUTOFF) := by
      push_neg
      simp only [L_LUM_A, L_LUM_B, L_LUM_C, L_LUM_CUTOFF] at hyroot ⊢
      nlinarith
    rw [L_luminance_inverse, if_neg hL]
    have hb : (L_LUM_A * y ^ ((1:ℝ)/3) - L_LUM_B + L_LUM_B) / L_LUM_A = y ^ ((1:ℝ)/3) := by
      simp only [L_LUM_A, L_LUM_B]
      field_simp
    rw [hb, rpow_third_cube hy]

theorem Lab_f_roundtrip (t : ℝ) (ht : 0 ≤ t)
    (hseam : t ≤ L_LUM_CUTOFF ∨ (LAB_F_A * L_LUM_CUTOFF + LAB_F_B) ^ (3:ℕ) < t) :
    Lab_f_inverse (Lab_f t) = t := by
  rcases hseam with h | h
  · rw [Lab_f, if_neg (not_lt.mpr h), Lab_f_inverse,
      if_pos (by simp only [LAB_F_A, LAB_F_B] at *; nlinarith)]
    simp only [LAB_F_A, LAB_F_B]
    field_simp
  · have hθnn : (0:ℝ) ≤ LAB_F_A * L_LUM_CUTOFF + LAB_F_B := by
      norm_num [LAB_F_A, LAB_F_B, L_LUM_CUTOFF]
    have hcub : L_LUM_CUTOFF < (LAB_F_A * L_LUM_CUTOFF + LAB_F_B) ^ (3:ℕ) := by
      norm_num [LAB_F_A, LAB_F_B, L_LUM_CUTOFF]
    have hygt : t > L_LUM_CUTOFF := lt_trans hcub h
    rw [Lab_f, if_pos hygt]
    have hyroot : LAB_F_A * L_LUM_CUTOFF + LAB_F_B < t ^ ((1:ℝ)/3) :=
      rpow_third_lt_of_cube_lt hθnn h
    rw [Lab_f_inverse, if_neg (not_le.mpr hyroot), rpow_third_cube ht]

theorem luv_roundtrip_aux (refw : Vec3 ℝ) (hrefy : refw.y = 1) (ru rv : ℝ)
    (xyz : Vec3 ℝ) (hx : 0 ≤ xyz.x) (hz : 0 ≤ xyz.z) (hy : 0 < xyz.y)
    (hseam : xyz.y ≤ L_LUM_CUTOFF ∨
      ((L_LUM_C * L_LUM_CUTOFF + L_LUM_B) / L_LUM_A) ^ (3:ℕ) < xyz.y) :
    xyz_from_luv (luv_from_xyz xyz refw ru rv) ru rv = xyz := by
  have hd : (0:ℝ) < xyz.x + 15.0 * xyz.y + 3.0 * xyz.z := by nlinarith
  have hdne : xyz.x + 15.0 * xyz.y + 3.0 * xyz.z ≠ 0 := ne_of_gt hd
  have hyne : xyz.y ≠ 0 := ne_of_gt hy
  have hL := L_luminance_pos xyz.y hy
  have hLne : L_luminance xyz.y ≠ 0 := ne_of_gt hL
  have hLy : L_luminance (xyz.y / refw.y) = L_luminance xyz.y := by
    rw [hrefy, div_one]
  have hv' : (9.0 * xyz.y / (xyz.x + 15.0 * xyz.y + 3.0 * xyz.z)) ≠ 0 :=
    ne_of_gt (div_pos (by nlinarith) hd)
  have huv : uv_primes xyz =
      (4.0 * xyz.x / (xyz.x + 15.0 * xyz.y + 3.0 * xyz.z),
       9.0 * xyz.y / (xyz.x + 15.0 * xyz.y + 3.0 * xyz.z)) := by
    simp only [uv_primes]
    rw [if_pos hdne]
  have hforward : luv_from_xyz xyz refw ru rv =
      ⟨L_luminance xyz.y,
       13.0 * L_luminance xyz.y *
         (4.0 * xyz.x / (xyz.x + 15.0 * xyz.y + 3.0 * xyz.z) - ru),
       13.0 * L_luminance xyz.y *
         (9.0 * xyz.y / (xyz.x + 15.0 * xyz.y + 3.0 * xyz.z) - rv)⟩ := by
    simp only [luv_from_xyz, huv, hLy]
  rw [hforward]
  simp only [xyz_from_luv]
  rw [if_pos hLne]
  have hu2 : ru + 13.0 * L_luminance xyz.y *
      (4.0 * xyz.x / (xyz.x + 15.0 * xyz.y + 3.0 * xyz.z) - ru) /
      (13.0 * L_luminance xyz.y) =
      4.0 * xyz.x / (xyz.x + 15.0 * xyz.y + 3.0 * xyz.z) := by
    field_simp
    ring
  have hv2 : rv + 13.0 * L_luminance xyz.y *
      (9.0 * xyz.y / (xyz.x + 15.0 * xyz.y + 3.0 * xyz.z) - rv) /
      (13.0 * L_luminance xyz.y) =
      9.0 * xyz.y / (xyz.x + 15.0 * xyz.y + 3.0 * xyz.z) := by
    field_simp
    ring
  rw [hu2, hv2, L_luminance_roundtrip xyz.y (le_of_lt hy) hseam]
  simp only [uv_primes_inverse]
  rw [if_pos hv']
  ext
  · show 0.25 * (4.0 * xyz.x / (xyz.x + 15.0 * xyz.y + 3.0 * xyz.z)) *
      (9.0 * xyz.y / (9.0 * xyz.y / (xyz.x + 15.0 * xyz.y + 3.0 * xyz.z))) = xyz.x
    field_simp
    ring
  · rfl
  · show (9.0 * xyz.y / (9.0 * xyz.y / (xyz.x + 15.0 * xyz.y + 3.0 * xyz.z)) -
      0.25 * (4.0 * xyz.x / (xyz.x + 15.0 * xyz.y + 3.0 * xyz.z)) *
        (9.0 * xyz.y / (9.0 * xyz.y / (xyz.x + 15.0 * xyz.y + 3.0 * xyz.z))) -
      15.0 * xyz.y) / 3.0 = xyz.z
    field_simp
    ring

theorem lab_roundtrip_aux (refw : Vec3 ℝ)
    (hwx : 0 < refw.x) (hwy : 0 < refw.y) (hwz : 0 < refw.z)
    (xyz : Vec3 ℝ) (hx : 0 ≤ xyz.x) (hy : 0 ≤ xyz.y) (hz : 0 ≤ xyz.z)
    (hseamY : xyz.y / refw.y ≤ L_LUM_CUTOFF ∨
      ((L_LUM_C * L_LUM_CUTOFF + L_LUM_B) / L_LUM_A) ^ (3:ℕ) < xyz.y / refw.y)
    (hseamX : xyz.x / refw.x ≤ L_LUM_CUTOFF ∨
      (LAB_F_A * L_LUM_CUTOFF + LAB_F_B) ^ (3:ℕ) < xyz.x / refw.x)
    (hseamZ : xyz.z / refw.z ≤ L_LUM_CUTOFF ∨
      (LAB_F_A * L_LUM_CUTOFF + LAB_F_B) ^ (3:ℕ) < xyz.z / refw.z) :
    xyz_from_lab (lab_from_xyz xyz refw) refw = xyz := by
  have hxp : 0 ≤ xyz.x / refw.x := div_nonneg hx (le_of_lt hwx)
  have hypn : 0 ≤ xyz.y / refw.y := div_nonneg hy (le_of_lt hwy)
  have hzp : 0 ≤ xyz.z / refw.z := div_nonneg hz (le_of_lt hwz)
  simp only [lab_from_xyz, xyz_from_lab]
  rw [L_luminance_roundtrip _ hypn hseamY]
  have hfx : Lab_f (xyz.y / refw.y) +
      500.0 * (Lab_f (xyz.x / refw.x) - Lab_f (xyz.y / refw.y)) / 500.0 =
      Lab_f (xyz.x / refw.x) := by
    field_simp
  have hfz : Lab_f (xyz.y / refw.y) -
      200.0 * (Lab_f (xyz.y / refw.y) - Lab_f (xyz.z / refw.z)) / 200.0 =
      Lab_f (xyz.z / refw.z) := by
    field_simp
  rw [hfx, hfz, Lab_f_roundtrip _ hxp hseamX, Lab_f_roundtrip _ hzp hseamZ]
  ext
  · show xyz.x / refw.x * refw.x = xyz.x
    exact div_mul_cancel₀ _ (ne_of_gt hwx)
  · show xyz.y / refw.y * refw.y = xyz.y
    exact div_mul_cancel₀ _ (ne_of_gt hwy)
  · show xyz.z / refw.z * refw.z = xyz.z
    exact div_mul_cancel₀ _ (ne_of_gt hwz)

theorem luv_collapses_y0 (refw : Vec3 ℝ) (ru rv : ℝ) (xyz : Vec3 ℝ) (hy : xyz.y = 0) :
    xyz_from_luv (luv_from_xyz xyz refw ru rv) ru rv = ⟨0, 0, 0⟩ := by
  have hL : L_luminance (xyz.y / refw.y) = 0 := by
    rw [hy, zero_div, L_luminance, if_neg (by norm_num [L_LUM_CUTOFF]), mul_zero]
  have hfwd_x : (luv_from_xyz xyz refw ru rv).x = 0 := by
    simp [luv_from_xyz, hL]
  simp only [xyz_from_luv]
  rw [hfwd_x]
  rw [if_neg (by norm_num)]

theorem normalize_Y1R_y1 (w : Vec3 ℝ) (hw : w.y ≠ 0) : (xyz_normalize_Y1R w).y = 1 := by
  simp only [xyz_normalize_Y1R]
  rw [if_pos hw]
  show w.y * (1 / w.y) = 1
  field_simp

theorem normalize_Y1R_pos (w : Vec3 ℝ) (hwx : 0 < w.x) (hwy : 0 < w.y) (hwz : 0 < w.z) :
    0 < (xyz_normalize_Y1R w).x ∧ 0 < (xyz_normalize_Y1R w).y ∧
      0 < (xyz_normalize_Y1R w).z := by
  simp only [xyz_normalize_Y1R]
  rw [if_pos (ne_of_gt hwy)]
  refine ⟨?_, ?_, ?_⟩ <;> positivity

/-- **C2 counterexample**: the claim quantifies over every XYZ triple with
non-negative components, but at `(1, 0, 0)` (`Y = 0`, not black) under the
default D65 white point the Luv pipeline computes `L = 0` and the inverse
therefore returns exactly black, so the round trip loses the X component
entirely (error 1, far above 1e-10). -/
theorem c2_luv_counterexample :
    convXyzFromLuv (mkPerceptualConverter ⟨0.3127, 0.3290, 0.3583⟩)
      (convLuvFromXyz (mkPerceptualConverter ⟨0.3127, 0.3290, 0.3583⟩) ⟨1, 0, 0⟩) =
      ⟨0, 0, 0⟩ ∧
    ¬ |(convXyzFromLuv (mkPerceptualConverter ⟨0.3127, 0.3290, 0.3583⟩)
        (convLuvFromXyz (mkPerceptualConverter ⟨0.3127, 0.3290, 0.3583⟩)
          ⟨1, 0, 0⟩)).x - 1| ≤ 1e-10 := by
  have h := luv_collapses_y0
    (mkPerceptualConverter ⟨0.3127, 0.3290, 0.3583⟩).reference_white
    (mkPerceptualConverter ⟨0.3127, 0.3290, 0.3583⟩).reference_u_prime
    (mkPerceptualConverter ⟨0.3127, 0.3290, 0.3583⟩).reference_v_prime
    ⟨1, 0, 0⟩ rfl
  refine ⟨h, ?_⟩
  rw [show (convXyzFromLuv (mkPerceptualConverter ⟨0.3127, 0.3290, 0.3583⟩)
      (convLuvFromXyz (mkPerceptualConverter ⟨0.3127, 0.3290, 0.3583⟩) ⟨1, 0, 0⟩)) =
      (⟨0, 0, 0⟩ : Vec3 ℝ) from h]
  norm_num

/-- **C2 amended**: under a reference white with nonzero Y (normalized to
Y = 1 by the converter), the Luv round trip `xyz_from_luv ∘ luv_from_xyz` is
the identity — in particular within 1e-10 — for the black triple `(0,0,0)`
(exactly, with no division by zero) and for every triple with `x, z ≥ 0` and
`y > 0` whose `y` avoids the branch-seam window
`(0.008856, ((903.29629551307664·0.008856+16)/116)³]` (width < 4e-18, where
the code's linear-range coefficient makes the forward and inverse branch
tests disagree); the Lab round trip `xyz_from_lab ∘ lab_from_xyz` is the
identity for every triple with non-negative components under a reference
white with positive components, provided each normalized coordinate avoids
the analogous seam window of `Lab_f` (the claim as stated fails at `(1,0,0)`,
see the counterexample). -/
theorem c2_perceptual_roundtrip (w xyz : Vec3 ℝ) :
    (convXyzFromLuv (mkPerceptualConverter w)
      (convLuvFromXyz (mkPerceptualConverter w) ⟨0, 0, 0⟩) = ⟨0, 0, 0⟩) ∧
    (w.y ≠ 0 → 0 ≤ xyz.x → 0 ≤ xyz.z → 0 < xyz.y →
      (xyz.y ≤ L_LUM_CUTOFF ∨
        ((L_LUM_C * L_LUM_CUTOFF + L_LUM_B) / L_LUM_A) ^ (3:ℕ) < xyz.y) →
      convXyzFromLuv (mkPerceptualConverter w)
        (convLuvFromXyz (mkPerceptualConverter w) xyz) = xyz) ∧
    (0 < w.x → 0 < w.y → 0 < w.z → 0 ≤ xyz.x → 0 ≤ xyz.y → 0 ≤ xyz.z →
      (xyz.y / (xyz_normalize_Y1R w).y ≤ L_LUM_CUTOFF ∨
        ((L_LUM_C * L_LUM_CUTOFF + L_LUM_B) / L_LUM_A) ^ (3:ℕ) <
          xyz.y / (xyz_normalize_Y1R w).y) →
      (xyz.x / (xyz_normalize_Y1R w).x ≤ L_LUM_CUTOFF ∨
        (LAB_F_A * L_LUM_CUTOFF + LAB_F_B) ^ (3:ℕ) <
          xyz.x / (xyz_normalize_Y1R w).x) →
      (xyz.z / (xyz_normalize_Y1R w).z ≤ L_LUM_CUTOFF ∨
        (LAB_F_A * L_LUM_CUTOFF + LAB_F_B) ^ (3:ℕ) <
          xyz.z / (xyz_normalize_Y1R w).z) →
      convXyzFromLab (mkPerceptualConverter w)
        (convLabFromXyz (mkPerceptualConverter w) xyz) = xyz) := by
  refine ⟨?_, ?_, ?_⟩
  · exact luv_collapses_y0 _ _ _ ⟨0, 0, 0⟩ rfl
  · intro hw hx hz hy hseam
    exact luv_roundtrip_aux _ (normalize_Y1R_y1 w hw) _ _ xyz hx hz hy hseam
  · intro hwx hwy hwz hx hy hz hseamY hseamX hseamZ
    obtain ⟨hnx, hny, hnz⟩ := normalize_Y1R_pos w hwx hwy hwz
    exact lab_roundtrip_aux _ hnx hny hnz xyz hx hy hz hseamY hseamX hseamZ

/-- Witness for the C2 amended theorem: D65 white, `xyz = (0.1, 0.2, 0.3)`. -/
theorem c2_perceptual_roundtrip_witness :
    convXyzFromLuv (mkPerceptualConverter ⟨0.3127, 0.3290, 0.3583⟩)
      (convLuvFromXyz (mkPerceptualConverter ⟨0.3127, 0.3290, 0.3583⟩)
        ⟨0.1, 0.2, 0.3⟩) = ⟨0.1, 0.2, 0.3⟩ ∧
    convXyzFromLab (mkPerceptualConverter ⟨0.3127, 0.3290, 0.3583⟩)
      (convLabFromXyz (mkPerceptualConverter ⟨0.3127, 0.3290, 0.3583⟩)
        ⟨0.1, 0.2, 0.3⟩) = ⟨0.1, 0.2, 0.3⟩ :=
  ⟨(c2_perceptual_roundtrip ⟨0.3127, 0.3290, 0.3583⟩ ⟨0.1, 0.2, 0.3⟩).2.1
      (by norm_num) (by norm_num) (by norm_num) (by norm_num)
      (Or.inr (by norm_num [L_LUM_A, L_LUM_B, L_LUM_C, L_LUM_CUTOFF])),
   (c2_perceptual_roundtrip ⟨0.3127, 0.3290, 0.3583⟩ ⟨0.1, 0.2, 0.3⟩).2.2
      (by norm_num) (by norm_num) (by norm_num) (by norm_num) (by norm_num)
      (by norm_num)
      (Or.inr (by norm_num [L_LUM_A, L_LUM_B, L_LUM_C, L_LUM_CUTOFF,
        xyz_normalize_Y1R]))
      (Or.inr (by norm_num [LAB_F_A, LAB_F_B, L_LUM_CUTOFF, xyz_normalize_Y1R]))
      (Or.inr (by norm_num [LAB_F_A, LAB_F_B, L_LUM_CUTOFF, xyz_normalize_Y1R]))⟩
